import Mathlib

/-!
Verification of the mastermind-style solver `farmer_puzzle.c`.

The C program fixes a secret code (a length-`CODE_LENGTH` array of digits in
`[0, DIGITS)`), repeatedly guesses, receives goat/chicken feedback
(exact/partial matches), prunes the linked list of still-possible codes, and
scores every remaining code with a bucket-table minimum to choose the next
guess.  The definitions below are a shallow embedding of the relevant C
functions; sequences are `List Nat`, the digit-count arrays of `make_guess`
are modelled by counting functions, and operations whose C counterpart
dereferences a null pointer (and hence has no defined result) return `none`.
-/

namespace FarmerPuzzle

/-- The `Offer` struct of the C source: `goats` are exact matches,
`chickens` are partial (value-only) matches. -/
structure Offer where
  goats : Nat
  chickens : Nat
deriving DecidableEq, Repr

/-- The pairs `(guess[i], code[i])` at the positions `i` where
`guess[i] != code[i]` — exactly the positions at which `make_guess`
increments `guess_digits[guess[i]]` and `code_digits[code[i]]`. -/
def nonExactPairs (guess code : List Nat) : List (Nat × Nat) :=
  (guess.zip code).filter (fun p => !(p.1 == p.2))

/-- The value of `guess_digits[v]` after the first loop of `make_guess`:
the number of non-exact positions whose guess symbol is `v`. -/
def guessDigits (guess code : List Nat) (v : Nat) : Nat :=
  (nonExactPairs guess code).countP (fun p => p.1 == v)

/-- The value of `code_digits[v]` after the first loop of `make_guess`:
the number of non-exact positions whose code symbol is `v`. -/
def codeDigits (guess code : List Nat) (v : Nat) : Nat :=
  (nonExactPairs guess code).countP (fun p => p.2 == v)

/-- `make_guess` from the C source: `goats` counts the positions where
guess and code agree; `chickens` sums, over every digit `v < DIGITS`
(the C loop `for i < DIGITS`), the minimum of the two remaining digit
counts.  `D` is the global `DIGITS`. -/
def makeGuess (D : Nat) (guess code : List Nat) : Offer :=
  { goats := (guess.zip code).countP (fun p => p.1 == p.2)
  , chickens :=
      ((List.range D).map
        (fun v => min (guessDigits guess code v) (codeDigits guess code v))).sum }

/-- `remove_impossible_codes` from the C source, at the level of the
linked list it rewires.  A node is kept exactly when its offer against
`guess` equals the observed `offer` and it is not the guess itself; the
return value of the C function is the count of kept nodes.  The C
function ends with `prev->next = NULL`, and `prev` is only ever set when
a node is kept: when every node is removed (or the list was empty) the C
code dereferences a null pointer, which the model reports as `none`. -/
def keptCodes (D : Nat) (guess : List Nat) (offer : Offer)
    (possible : List (List Nat)) : List (List Nat) :=
  possible.filter
    (fun c => decide (makeGuess D guess c = offer) && !(decide (c = guess)))

def removeImpossibleCodes (D : Nat) (guess : List Nat) (offer : Offer)
    (possible : List (List Nat)) : Option (List (List Nat) × Nat) :=
  if (keptCodes D guess offer possible).isEmpty then none
  else some (keptCodes D guess offer possible, (keptCodes D guess offer possible).length)

/-- The bucket index used by `worker`:
`(offer.goats * CODE_LENGTH) + offer.chickens`, with `L` the global
`CODE_LENGTH`. -/
def offerIndex (L : Nat) (o : Offer) : Nat :=
  o.goats * L + o.chickens

/-- The value of `offer_results[i]` after the inner loop of `worker`
for a candidate guess `g`: how many codes `c` of the remaining list `R`
produce the table index `i`.  (The C table only has indices
`0 .. L*L - 1`; `make_guess g g` produces index `L*L`, and that `+= 1`
lands one past the end of the allocation.) -/
def bucketCount (D L : Nat) (g : List Nat) (R : List (List Nat)) (i : Nat) : Nat :=
  R.countP (fun c => offerIndex L (makeGuess D g c) == i)

/-- The per-guess score `min_removed` computed by `worker`: starting from
`CODE_COUNT = DIGITS ^ CODE_LENGTH`, fold over the table indices
`0 .. L*L - 1`, skipping empty buckets and taking the minimum of the
nonempty ones. -/
def scoreOf (D L : Nat) (g : List Nat) (R : List (List Nat)) : Nat :=
  (List.range (L * L)).foldl
    (fun best i =>
      if bucketCount D L g R i = 0 then best else min (bucketCount D L g R i) best)
    (D ^ L)

/-- How many remaining codes fall in the same feedback-pair bucket as
offer `o` — buckets counted by the `(exact, partial)` pair itself, as the
specification words them. -/
def bucketOfPair (D : Nat) (g : List Nat) (R : List (List Nat)) (o : Offer) : Nat :=
  R.countP (fun c => decide (makeGuess D g c = o))

/-- The counts of the feedback-pair buckets touched while evaluating `g`
against every remaining code `c` (including `c = g`): each `c` touches
the bucket of its own pair, so the touched bucket counts are exactly the
entries of this list (all of them nonzero, each witnessed by its `c`). -/
def touchedCounts (D : Nat) (g : List Nat) (R : List (List Nat)) : List Nat :=
  R.map (fun c => bucketOfPair D g R (makeGuess D g c))

/-- The bucket counts that the min-scan of `worker` can actually see:
only candidates whose table index lands inside the `L*L`-entry table
contribute, and the buckets are counted by table index (the dense table
conflates distinct pairs that share an index). -/
def touchedCountsScanned (D L : Nat) (g : List Nat) (R : List (List Nat)) : List Nat :=
  (R.filter (fun c => decide (offerIndex L (makeGuess D g c) < L * L))).map
    (fun c => bucketCount D L g R (offerIndex L (makeGuess D g c)))

/-- `codes_per_thread` in `main`: integer division of the remaining
count by the thread count. -/
def codesPerThread (M T : Nat) : Nat := M / T

/-- The partition size computed in `main` for thread `i`:
`min(possible_code_count, (i+1)*codes_per_thread) - i*codes_per_thread`. -/
def partitionSize (M T i : Nat) : Nat :=
  min M ((i + 1) * codesPerThread M T) - i * codesPerThread M T

/-- The offset (in the remaining-candidate ordering) at which thread `i`
starts: `main` advances `curr_code` by `codes_per_thread` steps for each
earlier thread. -/
def partitionStart (M T i : Nat) : Nat := i * codesPerThread M T

/-- The list of all `T` partition sizes for remaining count `M`. -/
def partitionSizes (M T : Nat) : List Nat :=
  (List.range T).map (partitionSize M T)

/-- The next-guess selection after the workers are joined (`main`,
after the join loop): if `next_guess_score` is still `0`, fall back to
`possible_codes->code` — which dereferences a null pointer when the
remaining list is empty, modelled by `head? = none`; otherwise use the
shared `next_guess`. -/
def selectNextGuess (nextGuessScore : Nat) (nextGuess : Option (List Nat))
    (possible : List (List Nat)) : Option (List Nat) :=
  if nextGuessScore = 0 then possible.head? else nextGuess

/-- The stop condition of the main loop: `offer.goats == CODE_LENGTH`. -/
def stopCondition (L : Nat) (o : Offer) : Prop :=
  o.goats = L

instance (L : Nat) (o : Offer) : Decidable (stopCondition L o) := by
  unfold stopCondition; infer_instance

/-- One step of the `while (num != 0)` loop of `int_to_code`: write
`num % DIGITS` at `index`, divide `num` by `DIGITS`, decrement `index`.
When `DIGITS ≤ 1` and `num ≠ 0` the C loop never terminates (then
`num / DIGITS = num`); that branch is modelled as returning the code
unchanged and is unreachable for `num` inside the universe.  The C
`index` is a signed int that goes negative (an out-of-bounds write) when
the loop runs more than `CODE_LENGTH` times, which cannot happen for
`num < DIGITS ^ CODE_LENGTH`. -/
def intToCodeAux (D : Nat) (num index : Nat) (code : List Nat) : List Nat :=
  if h : num = 0 then code
  else if hD : D ≤ 1 then code
  else intToCodeAux D (num / D) (index - 1) (code.set index (num % D))
termination_by num
decreasing_by
  exact Nat.div_lt_self (Nat.pos_of_ne_zero h) (by omega)

/-- `int_to_code` from the C source: start from an all-zero code of
length `CODE_LENGTH` and fill base-`DIGITS` digits from position
`CODE_LENGTH - 1` downwards, most-significant digit first. -/
def intToCode (D L : Nat) (num : Nat) : List Nat :=
  intToCodeAux D num (L - 1) (List.replicate L 0)

/-- Reading a code back as a mixed-radix number in base `D`,
most-significant digit first — the inverse reading named by the
round-trip law of the specification. -/
def codeToInt (D : Nat) (code : List Nat) : Nat :=
  code.foldl (fun acc d => acc * D + d) 0

/-! ## Claim-side (specification-worded) definitions -/

/-- Specification reading of `exact_matches`: the count of positions
`i < L` where guess and target hold the same symbol. -/
def exactSpec (L : Nat) (guess target : List Nat) : Nat :=
  (List.range L).countP (fun i => guess.getD i 0 == target.getD i 0)

/-- Specification reading of `remaining_guess_count[v]`: the number of
positions not already counted as exact whose guess symbol is `v`. -/
def remainingGuessCount (L : Nat) (guess target : List Nat) (v : Nat) : Nat :=
  (List.range L).countP
    (fun i => !(guess.getD i 0 == target.getD i 0) && guess.getD i 0 == v)

/-- Specification reading of `remaining_target_count[v]`: the number of
positions not already counted as exact whose target symbol is `v`. -/
def remainingTargetCount (L : Nat) (guess target : List Nat) (v : Nat) : Nat :=
  (List.range L).countP
    (fun i => !(guess.getD i 0 == target.getD i 0) && target.getD i 0 == v)

/-- Specification reading of `partial_matches`: the sum over every
symbol value `v < D` of the minimum of the two remaining counts. -/
def overlapSpec (D L : Nat) (guess target : List Nat) : Nat :=
  ((List.range D).map
    (fun v => min (remainingGuessCount L guess target v)
                  (remainingTargetCount L guess target v))).sum

/-! ## Counterexamples and failing-input evaluations -/

/-- C2 counterexample: with `alphabet_size = 2`, `sequence_length = 2`,
guess `g = [0,0]` and remaining subset `[[0,0],[0,1],[1,0]]` (which
contains `g`), the worker's score is `2`, while the minimum nonzero
feedback-pair bucket count including the bucket touched by `c = g`
(the pair `(2,0)`, whose count is `1`) is `1`: the claim's score, the
minimum nonzero bucket count over all touched buckets, differs from the
score the code assigns. -/
theorem c2_counterexample :
    scoreOf 2 2 [0, 0] [[0, 0], [0, 1], [1, 0]] = 2 ∧
      (touchedCounts 2 [0, 0] [[0, 0], [0, 1], [1, 0]]).min? = some 1 ∧
      (touchedCounts 2 [0, 0] [[0, 0], [0, 1], [1, 0]]).all (fun b => b ≠ 0) = true := by
  decide

/-- C3 counterexample: for remaining count `M = 3` and worker count
`T = 2` the partition sizes produced by `main` are `[1, 1]`, which sum
to `2`, not to `M = 3`. -/
theorem c3_counterexample : ¬ (partitionSizes 3 2).sum = 3 := by
  decide

/-- C4 counterexample: pruning the remaining subset `[[0]]` with guess
`[0]` and its own observed offer `(1, 0)` removes every node, so
`remove_impossible_codes` executes `prev->next = NULL` with
`prev == NULL` — there is no defined after-state at all, contradicting
the claim's universally-quantified description of the state after
`prune`. -/
theorem c4_counterexample :
    removeImpossibleCodes 2 [0] ⟨1, 0⟩ [[0]] = none := by
  decide

/-- C5 failing-input evaluation: on an empty remaining subset neither
pruning nor the fallback next-guess selection has a defined result — the
C code dereferences `prev` resp. `possible_codes` while they are `NULL`
instead of reporting a distinct exhausted-candidates condition. -/
theorem c5_empty_remaining_undefined :
    removeImpossibleCodes 2 [1] ⟨0, 1⟩ [] = none ∧
      selectNextGuess 0 none [] = none := by
  decide

/-- C6 failing-input evaluation: with guess `[0,1]` and observed offer
`(2, 0)` against remaining subset `[[0,1],[1,0]]`, every node is removed
(the first as the guess itself, the second because its offer is
`(0, 2)`), so the removal loop finishes with `prev == NULL` and
`prev->next = NULL` faults instead of leaving an empty subset and
returning `0`. -/
theorem c6_remove_all_faults :
    removeImpossibleCodes 2 [0, 1] ⟨2, 0⟩ [[0, 1], [1, 0]] = none := by
  decide

/-- C7 failing-input evaluation: with `sequence_length = 2` and the
candidate `c = g = [1,1]` (the remaining subset always contains `g`
itself), the feedback is `(2, 0)` and the bucket index
`goats * CODE_LENGTH + chickens = 4` is not below
`CODE_LENGTH * CODE_LENGTH = 4`: `offer_results[4] += 1` writes one past
the end of the `calloc(4)` table. -/
theorem c7_self_bucket_out_of_bounds :
    ¬ offerIndex 2 (makeGuess 2 [1, 1] [1, 1]) < 2 * 2 := by
  decide


/-! ## Bridging lemmas -/

theorem zip_countP_eq_range (g : List Nat) : ∀ (t : List Nat) (p : Nat × Nat → Bool),
    g.length = t.length →
    (g.zip t).countP p = (List.range g.length).countP (fun i => p (g.getD i 0, t.getD i 0)) := by
  induction g with
  | nil => intro t p _; simp
  | cons a g ih =>
    intro t p h
    cases t with
    | nil => simp at h
    | cons b t =>
      have h' : g.length = t.length := by simpa using h
      simp only [List.zip_cons_cons, List.countP_cons, List.length_cons,
        List.range_succ_eq_map, List.countP_map, Function.comp_def,
        List.getD_cons_succ, List.getD_cons_zero]
      rw [ih t p h']

theorem countP_not_add {α : Type} (l : List α) (p : α → Bool) :
    l.countP p + l.countP (fun a => !p a) = l.length := by
  induction l with
  | nil => simp
  | cons x l ih =>
    by_cases h : p x <;> simp [List.countP_cons, h] <;> omega

theorem guessDigits_eq_remaining (L : Nat) (g t : List Nat)
    (hg : g.length = L) (ht : t.length = L) (v : Nat) :
    guessDigits g t v = remainingGuessCount L g t v := by
  unfold guessDigits nonExactPairs remainingGuessCount
  rw [List.countP_filter, zip_countP_eq_range g t _ (by omega), hg]
  have hfun : (fun i => (g.getD i 0 == v) && !(g.getD i 0 == t.getD i 0))
      = (fun i => !(g.getD i 0 == t.getD i 0) && (g.getD i 0 == v)) := by
    funext i; exact Bool.and_comm _ _
  rw [hfun]

theorem codeDigits_eq_remaining (L : Nat) (g t : List Nat)
    (hg : g.length = L) (ht : t.length = L) (v : Nat) :
    codeDigits g t v = remainingTargetCount L g t v := by
  unfold codeDigits nonExactPairs remainingTargetCount
  rw [List.countP_filter, zip_countP_eq_range g t _ (by omega), hg]
  have hfun : (fun i => (t.getD i 0 == v) && !(g.getD i 0 == t.getD i 0))
      = (fun i => !(g.getD i 0 == t.getD i 0) && (t.getD i 0 == v)) := by
    funext i; exact Bool.and_comm _ _
  rw [hfun]

/-- C1: for sequences of length `sequence_length` over `[0, alphabet_size)`,
`make_guess` returns exactly the specification feedback: `exact_matches`
is the count of agreeing positions and `partial_matches` is the sum over
each symbol value of the minimum of the remaining (non-exact) counts —
also in the presence of repeated symbol values, which the counting
definitions handle uniformly. -/
theorem evaluator_matches_spec (D L : Nat) (guess target : List Nat)
    (hg : guess.length = L) (ht : target.length = L)
    (hgd : ∀ x ∈ guess, x < D) (htd : ∀ x ∈ target, x < D) :
    makeGuess D guess target = ⟨exactSpec L guess target, overlapSpec D L guess target⟩ := by
  unfold makeGuess exactSpec overlapSpec
  have hfun : (fun v => min (guessDigits guess target v) (codeDigits guess target v))
      = (fun v => min (remainingGuessCount L guess target v) (remainingTargetCount L guess target v)) := by
    funext v
    rw [guessDigits_eq_remaining L guess target hg ht,
      codeDigits_eq_remaining L guess target hg ht]
  rw [hfun, zip_countP_eq_range guess target _ (by omega), hg]

/-- Witness for C1 at a concrete repeated-symbol input. -/
theorem evaluator_matches_spec_witness :
    makeGuess 3 [0, 1] [1, 1] = ⟨exactSpec 2 [0, 1] [1, 1], overlapSpec 3 2 [0, 1] [1, 1]⟩ :=
  evaluator_matches_spec 3 2 [0, 1] [1, 1] (by decide) (by decide)
    (by decide) (by decide)


theorem list_sum_map_add {α : Type} (l : List α) (f g : α → Nat) :
    (l.map (fun a => f a + g a)).sum = (l.map f).sum + (l.map g).sum := by
  induction l with
  | nil => simp
  | cons x l ih => simp [ih]; omega

theorem sum_indicator_le_one (D a : Nat) :
    ((List.range D).map (fun v => if a == v then 1 else 0)).sum ≤ 1 := by
  induction D with
  | zero => simp
  | succ D ih =>
    rw [List.range_succ, List.map_append, List.sum_append]
    have hsingle : (List.map (fun v => if a == v then 1 else 0) [D]).sum
        = if a == D then 1 else 0 := by simp
    by_cases h : a = D
    · have h0 : (List.map (fun v => if a == v then 1 else 0) (List.range D)).sum = 0 := by
        apply List.sum_eq_zero
        intro x hx
        rcases List.mem_map.mp hx with ⟨v, hv, rfl⟩
        have hvD : v < D := List.mem_range.mp hv
        have hne : (a == v) = false := by
          simp only [beq_eq_false_iff_ne, ne_eq]
          omega
        rw [hne]
        simp
      rw [h0, hsingle]
      split <;> omega
    · have hne : (a == D) = false := by simp [h]
      rw [hsingle, hne]
      simpa using ih

theorem sum_counts_le_length (D : Nat) (l : List (Nat × Nat)) :
    ((List.range D).map (fun v => l.countP (fun p => p.1 == v))).sum ≤ l.length := by
  induction l with
  | nil => simp
  | cons x l ih =>
    have hfun : (fun v => (x :: l).countP (fun p => p.1 == v))
        = (fun v => l.countP (fun p => p.1 == v) + (if x.1 == v then 1 else 0)) := by
      funext v
      rw [List.countP_cons]
    rw [hfun, list_sum_map_add]
    have hind := sum_indicator_le_one D x.1
    simp only [List.length_cons]
    omega

/-- C8: for sequences of length `sequence_length` over `[0, alphabet_size)`,
the feedback of `make_guess` satisfies
`exact_matches + partial_matches ≤ sequence_length`: the chicken sum is
bounded by the number of non-exact positions. -/
theorem evaluator_feedback_bounded (D L : Nat) (guess target : List Nat)
    (hg : guess.length = L) (ht : target.length = L)
    (hgd : ∀ x ∈ guess, x < D) (htd : ∀ x ∈ target, x < D) :
    (makeGuess D guess target).goats + (makeGuess D guess target).chickens ≤ L := by
  unfold makeGuess
  simp only
  have h1 : ((List.range D).map
        (fun v => min (guessDigits guess target v) (codeDigits guess target v))).sum
      ≤ ((List.range D).map (fun v => guessDigits guess target v)).sum :=
    List.sum_le_sum (fun v _ => Nat.min_le_left _ _)
  have h2 : ((List.range D).map (fun v => guessDigits guess target v)).sum
      ≤ (nonExactPairs guess target).length := by
    unfold guessDigits
    exact sum_counts_le_length D _
  have h3 : (guess.zip target).countP (fun p => p.1 == p.2)
        + (nonExactPairs guess target).length = (guess.zip target).length := by
    unfold nonExactPairs
    rw [← List.countP_eq_length_filter]
    exact countP_not_add _ _
  have h4 : (guess.zip target).length = L := by
    rw [List.length_zip]; omega
  omega

/-- Witness for C8 at a concrete input. -/
theorem evaluator_feedback_bounded_witness :
    (makeGuess 10 [1, 1, 2] [2, 1, 1]).goats + (makeGuess 10 [1, 1, 2] [2, 1, 1]).chickens ≤ 3 :=
  evaluator_feedback_bounded 10 3 [1, 1, 2] [2, 1, 1] (by decide) (by decide)
    (by decide) (by decide)

theorem zip_self_fst_eq_snd (g : List Nat) : ∀ q ∈ g.zip g, q.1 = q.2 := by
  induction g with
  | nil => intro q hq; simp at hq
  | cons a g ih =>
    intro q hq
    rw [List.zip_cons_cons, List.mem_cons] at hq
    rcases hq with rfl | hq
    · rfl
    · exact ih q hq

theorem zip_all_eq_iff (g : List Nat) : ∀ (t : List Nat), g.length = t.length →
    ((∀ q ∈ g.zip t, q.1 = q.2) ↔ g = t) := by
  induction g with
  | nil =>
    intro t h
    cases t with
    | nil => simp
    | cons b t => simp at h
  | cons a g ih =>
    intro t h
    cases t with
    | nil => simp at h
    | cons b t =>
      have h' : g.length = t.length := by simpa using h
      simp only [List.zip_cons_cons, List.mem_cons, List.cons.injEq]
      constructor
      · intro hall
        have hab := hall (a, b) (Or.inl rfl)
        refine ⟨hab, (ih t h').mp ?_⟩
        intro q hq
        exact hall q (Or.inr hq)
      · rintro ⟨rfl, rfl⟩
        intro q hq
        rcases hq with hq | hq
        · subst hq; rfl
        · exact zip_self_fst_eq_snd g q hq


/-- C10: the evaluator reports `exact_matches = sequence_length` exactly
when guess and target are element-wise equal (and then
`partial_matches = 0`), so the main-loop stop condition
`offer.goats == CODE_LENGTH` fires exactly when the played guess equals
the secret. -/
theorem stop_iff_equal (D L : Nat) (g s : List Nat)
    (hg : g.length = L) (hs : s.length = L) :
    (stopCondition L (makeGuess D g s) ↔ g = s) ∧
      (g = s → (makeGuess D g s).chickens = 0) := by
  constructor
  · unfold stopCondition makeGuess
    simp only
    have h4 : (g.zip s).length = L := by rw [List.length_zip]; omega
    rw [← h4, List.countP_eq_length]
    constructor
    · intro hall
      exact (zip_all_eq_iff g s (by omega)).mp (fun q hq => by simpa using hall q hq)
    · intro hgs q hq
      simp only [beq_iff_eq]
      exact (zip_all_eq_iff g s (by omega)).mpr hgs q hq
  · intro hgs
    subst hgs
    unfold makeGuess
    simp only
    apply List.sum_eq_zero
    intro x hx
    rcases List.mem_map.mp hx with ⟨v, hv, rfl⟩
    have hnil : nonExactPairs g g = [] := by
      unfold nonExactPairs
      rw [List.filter_eq_nil_iff]
      intro q hq
      have hq12 := zip_self_fst_eq_snd g q hq
      simp [hq12]
    unfold guessDigits codeDigits
    rw [hnil]
    simp

/-- Witness for C10 at a concrete input. -/
theorem stop_iff_equal_witness :
    (stopCondition 1 (makeGuess 2 [0] [0]) ↔ ([0] : List Nat) = [0]) ∧
      (([0] : List Nat) = [0] → (makeGuess 2 [0] [0]).chickens = 0) :=
  stop_iff_equal 2 1 [0] [0] rfl rfl


theorem intToCodeAux_zero (D idx : Nat) (code : List Nat) :
    intToCodeAux D 0 idx code = code := by
  rw [intToCodeAux]
  simp

theorem intToCodeAux_step (D num idx : Nat) (code : List Nat)
    (h0 : num ≠ 0) (hD : ¬ D ≤ 1) :
    intToCodeAux D num idx code
      = intToCodeAux D (num / D) (idx - 1) (code.set idx (num % D)) := by
  conv_lhs => rw [intToCodeAux]
  simp [h0, hD]

theorem intToCodeAux_append (D : Nat) : ∀ (num idx : Nat) (ys zs : List Nat),
    idx < ys.length →
    intToCodeAux D num idx (ys ++ zs) = intToCodeAux D num idx ys ++ zs := by
  intro num
  induction num using Nat.strong_induction_on with
  | _ num ih =>
    intro idx ys zs hidx
    by_cases h0 : num = 0
    · subst h0
      rw [intToCodeAux_zero, intToCodeAux_zero]
    · by_cases hD : D ≤ 1
      · conv_lhs => rw [intToCodeAux]
        conv_rhs => rw [intToCodeAux]
        simp [h0, hD]
      · rw [intToCodeAux_step D num idx (ys ++ zs) h0 hD,
          intToCodeAux_step D num idx ys h0 hD]
        rw [List.set_append_left _ _ hidx]
        have hlt : num / D < num := Nat.div_lt_self (Nat.pos_of_ne_zero h0) (by omega)
        have hidx' : idx - 1 < (ys.set idx (num % D)).length := by
          rw [List.length_set]
          omega
        exact ih (num / D) hlt (idx - 1) (ys.set idx (num % D)) zs hidx'

theorem intToCode_succ (D L n : Nat) (hn : n < D ^ (L + 1)) :
    intToCode D (L + 1) n = intToCode D L (n / D) ++ [n % D] := by
  unfold intToCode
  simp only [Nat.add_sub_cancel]
  by_cases h0 : n = 0
  · subst h0
    rw [intToCodeAux_zero, Nat.zero_div, Nat.zero_mod, intToCodeAux_zero]
    exact List.replicate_succ' L 0
  · have hD2 : 2 ≤ D := by
      by_contra hlt
      push_neg at hlt
      have hcases : D = 0 ∨ D = 1 := by omega
      rcases hcases with rfl | rfl
      · rw [zero_pow (by omega)] at hn
        omega
      · rw [one_pow] at hn
        omega
    have hDn : ¬ D ≤ 1 := by omega
    rw [intToCodeAux_step D n L (List.replicate (L + 1) 0) h0 hDn]
    have hset : (List.replicate (L + 1) 0).set L (n % D) = List.replicate L 0 ++ [n % D] := by
      rw [List.replicate_succ', List.set_append_right _ _ (by simp)]
      simp
    rw [hset]
    by_cases hnd : n / D = 0
    · rw [hnd, intToCodeAux_zero, intToCodeAux_zero]
    · have hL1 : 1 ≤ L := by
        by_contra hL
        have hL0 : L = 0 := by omega
        subst hL0
        have hnD : n < D := by simpa using hn
        exact hnd (Nat.div_eq_of_lt hnD)
      rw [intToCodeAux_append D (n / D) (L - 1) (List.replicate L 0) [n % D] (by simp; omega)]

theorem codeToInt_append_last (D : Nat) (xs : List Nat) (d : Nat) :
    codeToInt D (xs ++ [d]) = codeToInt D xs * D + d := by
  simp [codeToInt, List.foldl_append]

/-- C9: for every `n` in `[0, alphabet_size ^ sequence_length)`,
converting `n` to a code with `int_to_code` (mixed radix, base
`alphabet_size`, `sequence_length` digits, most-significant first) and
reading the code back as a mixed-radix number yields `n` again. -/
theorem int_to_code_roundtrip (D L n : Nat) (hn : n < D ^ L) :
    codeToInt D (intToCode D L n) = n := by
  induction L generalizing n with
  | zero =>
    have hn0 : n = 0 := by simpa [Nat.lt_one_iff] using hn
    subst hn0
    rw [intToCode, intToCodeAux_zero]
    simp [codeToInt]
  | succ L ih =>
    rw [intToCode_succ D L n hn, codeToInt_append_last]
    have hD : 0 < D := by
      rcases Nat.eq_zero_or_pos D with hD0 | hD0
      · subst hD0; simp at hn
      · exact hD0
    have h1 : n / D < D ^ L := by
      rw [Nat.div_lt_iff_lt_mul hD]
      calc n < D ^ (L + 1) := hn
        _ = D ^ L * D := by rw [pow_succ]
    rw [ih (n / D) h1, Nat.mul_comm]
    exact Nat.div_add_mod n D

/-- Witness for C9 at a concrete input. -/
theorem int_to_code_roundtrip_witness : codeToInt 10 (intToCode 10 3 123) = 123 :=
  int_to_code_roundtrip 10 3 123 (by decide)


/-- C3 (amended): for every remaining count `M` and worker count
`T ≥ 1`, `main` produces `T` contiguous partitions; each partition's
size, given by `min(M, (i+1)*⌊M/T⌋) − i*⌊M/T⌋`, equals `⌊M/T⌋`, the
start offsets advance by exactly the size (no overlap, no gap over the
first `T*⌊M/T⌋` candidates), and the sizes sum to `M - M % T` — which is
`M` only when `T` divides `M`; the trailing `M % T` candidates belong to
no partition. -/
theorem partitioner_sizes (M T : Nat) (hT : 1 ≤ T) :
    (∀ i, i < T → partitionSize M T i = codesPerThread M T) ∧
      (∀ i, partitionStart M T (i + 1)
        = partitionStart M T i + codesPerThread M T) ∧
      (partitionSizes M T).length = T ∧
      (partitionSizes M T).sum = M - M % T := by
  have hsize : ∀ i, i < T → partitionSize M T i = codesPerThread M T := by
    intro i hi
    unfold partitionSize
    have hle : (i + 1) * codesPerThread M T ≤ M := by
      calc (i + 1) * codesPerThread M T
          ≤ T * codesPerThread M T := Nat.mul_le_mul_right _ (by omega)
        _ = codesPerThread M T * T := Nat.mul_comm _ _
        _ ≤ M := Nat.div_mul_le_self M T
    rw [Nat.min_eq_right hle, Nat.succ_mul]
    omega
  refine ⟨hsize, ?_, ?_, ?_⟩
  · intro i
    unfold partitionStart
    rw [Nat.succ_mul]
  · unfold partitionSizes
    rw [List.length_map, List.length_range]
  · unfold partitionSizes
    have hmap : (List.range T).map (partitionSize M T)
        = (List.range T).map (fun _ => codesPerThread M T) := by
      apply List.map_congr_left
      intro i hi
      exact hsize i (List.mem_range.mp hi)
    rw [hmap, List.map_const', List.length_range, List.sum_const_nat]
    have hdm := Nat.div_add_mod M T
    exact Nat.eq_sub_of_add_eq hdm

/-- Witness for C3 (amended) at `M = 7`, `T = 3`: the sizes sum to
`7 - 7 % 3 = 6`. -/
theorem partitioner_sizes_witness : (partitionSizes 7 3).sum = 7 - 7 % 3 :=
  (partitioner_sizes 7 3 (by decide)).2.2.2

/-- C4 (amended): whenever `remove_impossible_codes` has a defined
result (at least one candidate survives — otherwise the C code faults on
`prev->next`, see the counterexample), a candidate is in the new
remaining subset exactly when it was remaining before, its offer against
the played guess equals the observed offer, and it is not the played
guess; the returned value is the new count, the count never increases,
and the played guess never survives. -/
theorem prune_characterization (D : Nat) (g : List Nat) (o : Offer)
    (P P' : List (List Nat)) (n : Nat)
    (h : removeImpossibleCodes D g o P = some (P', n)) :
    (∀ c, c ∈ P' ↔ (c ∈ P ∧ makeGuess D g c = o ∧ c ≠ g)) ∧
      n = P'.length ∧ P'.length ≤ P.length ∧ g ∉ P' := by
  unfold removeImpossibleCodes at h
  split at h
  · exact absurd h (by simp)
  · rw [Option.some.injEq, Prod.mk.injEq] at h
    obtain ⟨hP', hn⟩ := h
    subst hP'
    refine ⟨?_, hn.symm, List.length_filter_le _ _, ?_⟩
    · intro c
      unfold keptCodes
      rw [List.mem_filter]
      simp [and_assoc]
    · intro hg
      unfold keptCodes at hg
      rw [List.mem_filter] at hg
      simp at hg

/-- Witness for C4 (amended): pruning `[[0],[1]]` with guess `[0]` and
offer `(0,0)` keeps exactly `[[1]]` and returns `1`. -/
theorem prune_characterization_witness :
    1 = ([[1]] : List (List Nat)).length ∧
      ([[1]] : List (List Nat)).length ≤ ([[0], [1]] : List (List Nat)).length ∧
      ([0] : List Nat) ∉ ([[1]] : List (List Nat)) :=
  (prune_characterization 2 [0] ⟨0, 0⟩ [[0], [1]] [[1]] 1 (by decide)).2


theorem foldMin_le_init (bc : Nat → Nat) :
    ∀ (n init : Nat),
      (List.range n).foldl
        (fun best i => if bc i = 0 then best else min (bc i) best) init ≤ init := by
  intro n
  induction n with
  | zero => intro init; simp
  | succ n ih =>
    intro init
    rw [List.range_succ, List.foldl_append]
    simp only [List.foldl_cons, List.foldl_nil]
    by_cases h : bc n = 0
    · rw [if_pos h]
      exact ih init
    · rw [if_neg h]
      exact le_trans (Nat.min_le_right _ _) (ih init)

theorem foldMin_le_bucket (bc : Nat → Nat) :
    ∀ (n init i : Nat), i < n → bc i ≠ 0 →
      (List.range n).foldl
        (fun best j => if bc j = 0 then best else min (bc j) best) init ≤ bc i := by
  intro n
  induction n with
  | zero => intro init i hi; omega
  | succ n ih =>
    intro init i hi hbc
    rw [List.range_succ, List.foldl_append]
    simp only [List.foldl_cons, List.foldl_nil]
    rcases Nat.lt_or_ge i n with hin | hin
    · by_cases h : bc n = 0
      · rw [if_pos h]
        exact ih init i hin hbc
      · rw [if_neg h]
        exact le_trans (Nat.min_le_right _ _) (ih init i hin hbc)
    · have hieq : i = n := by omega
      subst hieq
      rw [if_neg hbc]
      exact Nat.min_le_left _ _

theorem foldMin_attained (bc : Nat → Nat) :
    ∀ (n init : Nat),
      (List.range n).foldl
          (fun best i => if bc i = 0 then best else min (bc i) best) init = init ∨
        ∃ i, i < n ∧ bc i ≠ 0 ∧
          (List.range n).foldl
            (fun best i => if bc i = 0 then best else min (bc i) best) init = bc i := by
  intro n
  induction n with
  | zero => intro init; left; simp
  | succ n ih =>
    intro init
    rw [List.range_succ, List.foldl_append]
    simp only [List.foldl_cons, List.foldl_nil]
    by_cases h : bc n = 0
    · rw [if_pos h]
      rcases ih init with h1 | ⟨i, hi, hbc, hval⟩
      · exact Or.inl h1
      · exact Or.inr ⟨i, by omega, hbc, hval⟩
    · rw [if_neg h]
      rcases Nat.le_total (bc n)
          ((List.range n).foldl
            (fun best i => if bc i = 0 then best else min (bc i) best) init) with hle | hle
      · right
        exact ⟨n, by omega, h, Nat.min_eq_left hle⟩
      · rw [Nat.min_eq_right hle]
        rcases ih init with h1 | ⟨i, hi, hbc, hval⟩
        · exact Or.inl h1
        · exact Or.inr ⟨i, by omega, hbc, hval⟩

/-- Every remaining code `c` contributes at least itself to the bucket
at its own table index. -/
theorem bucketCount_self_pos (D L : Nat) (g : List Nat) (R : List (List Nat))
    (c : List Nat) (hc : c ∈ R) :
    bucketCount D L g R (offerIndex L (makeGuess D g c)) ≠ 0 := by
  unfold bucketCount
  have hpos : 0 < R.countP
      (fun c' => offerIndex L (makeGuess D g c') == offerIndex L (makeGuess D g c)) := by
    rw [List.countP_pos_iff]
    exact ⟨c, hc, by simp⟩
  omega

theorem bucketCount_le_length (D L : Nat) (g : List Nat) (R : List (List Nat))
    (i : Nat) : bucketCount D L g R i ≤ R.length := by
  unfold bucketCount
  exact List.countP_le_length _

/-- C2 (amended): the score `worker` assigns to a guess `g` is the
minimum nonzero bucket count over the buckets the min-scan can read:
buckets are counted by table index `exact*sequence_length + partial`
restricted to indices below `sequence_length²`.  The feedback `(L, 0)`
produced by `c = g` has index exactly `sequence_length²` and is
excluded (its increment lands outside the table, see C7).  Hypotheses:
the remaining subset is no larger than the universe (so the fold's
initial value `DIGITS ^ CODE_LENGTH` is an upper bound) and at least one
candidate's index lands inside the table. -/
theorem worker_score_eq_min_scanned (D L : Nat) (g : List Nat)
    (R : List (List Nat)) (hlen : R.length ≤ D ^ L)
    (hne : touchedCountsScanned D L g R ≠ []) :
    (touchedCountsScanned D L g R).min? = some (scoreOf D L g R) := by
  rw [List.min?_eq_some_iff']
  constructor
  · -- the score is attained by a scanned bucket
    rcases foldMin_attained (bucketCount D L g R) (L * L) (D ^ L) with hinit | ⟨i, hi, hbc, hval⟩
    · -- score = D ^ L: compare with any touched bucket
      obtain ⟨b, hb⟩ := List.exists_mem_of_ne_nil _ hne
      obtain ⟨c, hcf, hbeq⟩ := List.mem_map.mp hb
      obtain ⟨hcR, hcidx⟩ := List.mem_filter.mp hcf
      have hidx : offerIndex L (makeGuess D g c) < L * L := of_decide_eq_true hcidx
      have hble : scoreOf D L g R ≤ b := by
        rw [← hbeq]
        exact foldMin_le_bucket (bucketCount D L g R) (L * L) (D ^ L) _ hidx
          (bucketCount_self_pos D L g R c hcR)
      have hble2 : b ≤ scoreOf D L g R := by
        unfold scoreOf
        rw [hinit, ← hbeq]
        exact le_trans (bucketCount_le_length D L g R _) hlen
      have hbeq2 : b = scoreOf D L g R := le_antisymm hble2 hble
      rw [← hbeq2]
      exact hb
    · -- score = bucketCount at a scanned nonzero index i
      have hwit : ∃ c ∈ R, (offerIndex L (makeGuess D g c) == i) = true := by
        rw [← List.countP_pos_iff]
        unfold bucketCount at hbc
        omega
      obtain ⟨c, hcR, hceq⟩ := hwit
      have hceq' : offerIndex L (makeGuess D g c) = i := by simpa using hceq
      apply List.mem_map.mpr
      refine ⟨c, List.mem_filter.mpr ⟨hcR, ?_⟩, ?_⟩
      · rw [hceq']
        exact decide_eq_true hi
      · rw [hceq']
        unfold scoreOf
        rw [hval]
  · -- the score is below every scanned bucket count
    intro b hb
    obtain ⟨c, hcf, hbeq⟩ := List.mem_map.mp hb
    obtain ⟨hcR, hcidx⟩ := List.mem_filter.mp hcf
    have hidx : offerIndex L (makeGuess D g c) < L * L := of_decide_eq_true hcidx
    rw [← hbeq]
    exact foldMin_le_bucket (bucketCount D L g R) (L * L) (D ^ L) _ hidx
      (bucketCount_self_pos D L g R c hcR)

/-- Witness for C2 (amended) at the counterexample's input: the scanned
bucket counts are `[2, 2]` and the worker's score is their minimum `2`. -/
theorem worker_score_eq_min_scanned_witness :
    (touchedCountsScanned 2 2 [0, 0] [[0, 0], [0, 1], [1, 0]]).min?
      = some (scoreOf 2 2 [0, 0] [[0, 0], [0, 1], [1, 0]]) :=
  worker_score_eq_min_scanned 2 2 [0, 0] [[0, 0], [0, 1], [1, 0]]
    (by decide) (by decide)

end FarmerPuzzle
